import Mathlib

/-!
# Verification of the task-orchestration and tool-execution engine

A shallow embedding, in Lean 4, of the core of the `manus_ai_agent`
repository: the command policy and shell runner (`src/agents/tools.py`,
`ShellExecutor`), the file-access guard (`FileManager`), and the plan
parser and executor (`src/agents/orchestrator.py`, `AgentOrchestrator`).

Strings are modelled as `List Char` (the character data of Python `str`)
so that every definition is executable by kernel reduction.  Python's
POSIX path helpers `os.path.join` and `os.path.normpath` are embedded
faithfully, component by component, following CPython's `posixpath.py`.
The filesystem is modelled as a partial map from normalized absolute
paths to nodes (file with content, or directory with entry names);
the operating system resolves a requested path by normalizing it,
which is the standard symlink-free model of POSIX path resolution.
-/

namespace Manus

/-- Boolean test that `pre` is a (list) prefix of `l`, i.e. Python
`str.startswith`. -/
def isPrefixList : List Char → List Char → Bool
  | [], _ => true
  | _ :: _, [] => false
  | a :: as, b :: bs => a = b && isPrefixList as bs

/-- Boolean substring test: Python's `needle in haystack`. -/
def containsSub (needle : List Char) : List Char → Bool
  | [] => isPrefixList needle []
  | c :: cs => isPrefixList needle (c :: cs) || containsSub needle cs

/-- Split a list at every occurrence of the character `sep`, keeping empty
segments, i.e. Python `str.split(sep)` for a one-character separator. -/
def splitOnChar (sep : Char) : List Char → List (List Char)
  | [] => [[]]
  | c :: cs =>
    if c = sep then [] :: splitOnChar sep cs
    else
      match splitOnChar sep cs with
      | [] => [[c]]
      | h :: t => (c :: h) :: t

/-- Drop leading whitespace characters. -/
def trimLeft : List Char → List Char
  | [] => []
  | c :: cs => if c.isWhitespace then trimLeft cs else c :: cs

/-- Python `str.strip()`: drop whitespace at both ends. -/
def trimBoth (l : List Char) : List Char :=
  ((trimLeft l).reverse |> trimLeft).reverse

/-- Whitespace tokenizer, i.e. Python `str.split()` with no argument:
split on runs of whitespace, producing no empty tokens.  `acc` holds the
reversed characters of the token currently being read. -/
def splitWS : List Char → List Char → List (List Char)
  | [], acc => if acc = [] then [] else [acc.reverse]
  | c :: cs, acc =>
    if c.isWhitespace then
      if acc = [] then splitWS cs [] else acc.reverse :: splitWS cs []
    else splitWS cs (c :: acc)

/-- Split at the first occurrence of `sep` (Python `str.split(sep, 1)`),
returning `none` when `sep` does not occur. -/
def splitFirst (sep : List Char) : List Char → Option (List Char × List Char)
  | [] => if sep = [] then some ([], []) else none
  | c :: cs =>
    if isPrefixList sep (c :: cs) then some ([], (c :: cs).drop sep.length)
    else
      match splitFirst sep cs with
      | none => none
      | some (pre, post) => some (c :: pre, post)

/-! ## Command policy: `ShellExecutor.is_command_allowed` (tools.py 164-193) -/

/-- Configuration of `ShellExecutor`: the allow list of base commands and
the block list of substrings (tools.py 150-151). -/
structure ShellConfig where
  allowed : List (List Char)
  blocked : List (List Char)

/-- The constructor defaults of `ShellExecutor` (tools.py 150-151):
allow = {ls, cat, pwd, echo, grep, find}, block = {rm, mkfs, dd, >, format}. -/
def defaultShellConfig : ShellConfig :=
  ⟨["ls".data, "cat".data, "pwd".data, "echo".data, "grep".data, "find".data],
   ["rm".data, "mkfs".data, "dd".data, ">".data, "format".data]⟩

/-- `ShellExecutor.is_command_allowed` (tools.py 164-193): tokenize
`command.strip().split()`; reject when empty; reject when any blocked
substring occurs in the full command string; reject when an allow list is
configured and the base command is not in it; otherwise accept. -/
def is_command_allowed (cfg : ShellConfig) (command : List Char) : Bool :=
  match splitWS (trimBoth command) [] with
  | [] => false
  | base :: _ =>
    if cfg.blocked.any (fun b => containsSub b command) then false
    else if cfg.allowed ≠ [] ∧ cfg.allowed.all (fun a => a ≠ base) then false
    else true

/-! ## POSIX path semantics: `os.path.join` and `os.path.normpath`
(CPython `posixpath.py`), used by `FileManager.manage_file`. -/

/-- `os.path.join(a, b)` (POSIX): an absolute `b` replaces `a`; otherwise
`b` is appended, inserting a separator unless `a` is empty or already ends
in one. -/
def joinPathL (a b : List Char) : List Char :=
  if isPrefixList ['/'] b then b
  else if a = [] ∨ a.getLast? = some '/' then a ++ b
  else a ++ '/' :: b

/-- One step of `os.path.normpath`'s component loop: skip empty and `.`
components; append a component unless it is a poppable `..`; pop on a
`..` that cancels a previous real component. -/
def normpathStep (initialSlashes : Nat) (acc : List (List Char))
    (comp : List Char) : List (List Char) :=
  if comp = [] ∨ comp = ['.'] then acc
  else if comp ≠ ['.', '.'] ∨ (initialSlashes = 0 ∧ acc = []) ∨
      (acc ≠ [] ∧ acc.getLast? = some ['.', '.']) then
    acc ++ [comp]
  else if acc ≠ [] then acc.dropLast
  else acc

/-- `os.path.normpath` (POSIX): collapse `//`, `/./` and `a/..`; `..`
segments at an absolute root are dropped; one or exactly two leading
slashes are preserved; the empty result becomes `.`. -/
def normpathL (p : List Char) : List Char :=
  if p = [] then ['.']
  else
    let initialSlashes : Nat :=
      if isPrefixList ['/'] p then
        if isPrefixList ['/', '/'] p ∧ ¬ isPrefixList ['/', '/', '/'] p
        then 2 else 1
      else 0
    let comps := splitOnChar '/' p
    let newComps := comps.foldl (normpathStep initialSlashes) []
    let res := List.replicate initialSlashes '/' ++ List.intercalate ['/'] newComps
    if res = [] then ['.'] else res

/-! ## File-access guard: `FileManager.manage_file` (tools.py 349-500) -/

/-- The containment test actually performed by `manage_file`
(tools.py 365-368): resolve `full_path = os.path.join(working_dir, path)`
and require `os.path.normpath(full_path).startswith(os.path.normpath(working_dir))`
— a *string*-prefix test on the normalized paths. -/
def pathCheckOk (workingDir path : List Char) : Bool :=
  isPrefixList (normpathL workingDir) (normpathL (joinPathL workingDir path))

/-- The spec's containment invariant, stated as written: the resolved and
normalized path must remain within the root, i.e. the normalized root is a
*path*-prefix of the resolution (equal to it, or followed by a separator).
This is the notion `manage_file` is claimed to enforce; it is compared with
`pathCheckOk`, the test the code performs. -/
def specWithinRoot (workingDir path : List Char) : Bool :=
  let root := normpathL workingDir
  let res := normpathL (joinPathL workingDir path)
  res == root || isPrefixList (root ++ ['/']) res

/-- A filesystem node: a regular file with textual content, or a
directory with its direct entry names. -/
inductive FSNode where
  | file (content : List Char)
  | dir (entries : List (List Char))
deriving DecidableEq

/-- A filesystem: a partial map from normalized absolute paths to nodes.
The operating system resolves a requested path by normalizing it, so an
access to `full_path` reads the map at `normpathL full_path` (the
standard symlink-free model of POSIX resolution). -/
def FS : Type := List Char → Option FSNode

/-- The result dictionary of `manage_file`: `success`, the echoed request
`path`, and the `error` / `content` / `contents` fields of the branch
taken (fields a branch does not set are `none`). -/
structure FileResult where
  success : Bool
  path : List Char
  error : Option (List Char)
  content : Option (List Char)
  contents : Option (List (List Char))

/-- `FileManager.manage_file` (tools.py 349-500) over the abstract
filesystem, returning the result dictionary and the filesystem after the
call.  Branches follow the source in order: the containment test, then
`read` / `write` / `append` / `delete` / `list`, then the unknown-action
error.  `os.makedirs` of intermediate directories is a no-op in the map
model (directories are implicit); `write`/`append` aimed at an existing
directory fail the way the caught `IsADirectoryError` does in the source;
`list` is modelled as returning entry names (the per-entry stat details
carry no logic). -/
def manage_file (workingDir action path : List Char)
    (content : Option (List Char)) (fs : FS) : FileResult × FS :=
  let fullPath := joinPathL workingDir path
  let key := normpathL fullPath
  if pathCheckOk workingDir path = false then
    (⟨false, path, some "Path is outside the working directory".data, none, none⟩, fs)
  else if action = "read".data then
    match fs key with
    | none => (⟨false, path, some "File does not exist".data, none, none⟩, fs)
    | some (.dir entries) => (⟨true, path, none, none, some entries⟩, fs)
    | some (.file c) => (⟨true, path, none, some c, none⟩, fs)
  else if action = "write".data then
    match fs key with
    | some (.dir _) => (⟨false, path, some "Is a directory".data, none, none⟩, fs)
    | _ =>
      (⟨true, path, none, none, none⟩,
       fun q => if q = key then some (.file (content.getD [])) else fs q)
  else if action = "append".data then
    match fs key with
    | some (.dir _) => (⟨false, path, some "Is a directory".data, none, none⟩, fs)
    | some (.file c) =>
      (⟨true, path, none, none, none⟩,
       fun q => if q = key then some (.file (c ++ content.getD [])) else fs q)
    | none =>
      (⟨true, path, none, none, none⟩,
       fun q => if q = key then some (.file (content.getD [])) else fs q)
  else if action = "delete".data then
    match fs key with
    | none => (⟨false, path, some "File does not exist".data, none, none⟩, fs)
    | some (.dir _) => (⟨false, path, some "Cannot delete directories".data, none, none⟩, fs)
    | some (.file _) =>
      (⟨true, path, none, none, none⟩, fun q => if q = key then none else fs q)
  else if action = "list".data then
    match fs key with
    | none => (⟨false, path, some "Path does not exist".data, none, none⟩, fs)
    | some (.file _) => (⟨false, path, some "Path is not a directory".data, none, none⟩, fs)
    | some (.dir entries) => (⟨true, path, none, none, some entries⟩, fs)
  else
    (⟨false, path, some ("Unknown action: ".data ++ action), none, none⟩, fs)

/-! ## Shell runner: `ShellExecutor.run_command` and `_run_local`
(tools.py 195-333).  The operating-system behaviour of the spawned child
process is an oracle parameter: it either finishes with an exit code and
captured output, or exceeds the 60-second hard timeout (the
`subprocess.TimeoutExpired` branch). -/

/-- Outcome of the local child process under `subprocess.run(..., timeout=60)`. -/
inductive ExecOutcome where
  | finished (returncode : Int) (stdout stderr : List Char)
  | timedOut

/-- Outcome of the Docker sandbox call in `_run_sandboxed`. -/
inductive SandboxOutcome where
  | output (s : List Char)
  | decodeFailure
  | dockerError (msg : List Char)

/-- The result dictionary of `run_command` and its helpers: `success`,
the echoed `command`, and the `stdout` / `stderr` / `returncode` /
`error` fields of the branch taken. -/
structure CommandResult where
  success : Bool
  command : List Char
  stdout : Option (List Char)
  stderr : Option (List Char)
  returncode : Option Int
  error : Option (List Char)

/-- `ShellExecutor._run_local` (tools.py 230-266): a finished process
reports `success = (returncode == 0)` with captured output; the
`TimeoutExpired` handler returns a failure value naming the timeout.
Being a total function into `CommandResult`, no outcome propagates as a
raised fault. -/
def run_local (command : List Char) : ExecOutcome → CommandResult
  | .finished rc out err => ⟨rc = 0, command, some out, some err, some rc, none⟩
  | .timedOut =>
    ⟨false, command, none, none, none,
     some "Command execution timed out after 60 seconds".data⟩

/-- `ShellExecutor._run_sandboxed` (tools.py 268-333): success with the
container output, or the decode-failure / Docker-error failure values. -/
def run_sandboxed (command : List Char) : SandboxOutcome → CommandResult
  | .output s => ⟨true, command, some s, some [], some 0, none⟩
  | .decodeFailure =>
    ⟨false, command, none, none, none, some "Failed to decode container output".data⟩
  | .dockerError m =>
    ⟨false, command, none, none, none, some ("Error in Docker execution: ".data ++ m)⟩

/-- `ShellExecutor.run_command` (tools.py 195-228): a command rejected by
`is_command_allowed` yields the security failure value; otherwise the
sandboxed or the local runner executes it according to `enable_sandbox`. -/
def run_command (cfg : ShellConfig) (enableSandbox : Bool) (command : List Char)
    (localOutcome : ExecOutcome) (sandboxOutcome : SandboxOutcome) : CommandResult :=
  if is_command_allowed cfg command = false then
    ⟨false, command, none, none, none,
     some "This command is not allowed for security reasons.".data⟩
  else if enableSandbox then run_sandboxed command sandboxOutcome
  else run_local command localOutcome

/-! ## Plan parser: `AgentOrchestrator._parse_plan` (orchestrator.py 173-225) -/

/-- A plan step as produced by `_parse_plan`: description, sub-task list,
status string. -/
structure PlanStep where
  description : List Char
  subtasks : List (List Char)
  status : List Char
deriving DecidableEq

/-- The step-header test of `_parse_plan` (orchestrator.py 196): the
stripped line's first character is a digit and the line contains `". "`. -/
def isStepHeader (line : List Char) : Bool :=
  match line with
  | [] => false
  | c :: cs => c.isDigit && containsSub ['.', ' '] (c :: cs)

/-- Close the currently open step, if any, into a singleton list with
status `pending` (orchestrator.py 198-203 and 217-223). -/
def closeStep (curr : Option (List Char)) (subs : List (List Char)) : List PlanStep :=
  match curr with
  | none => []
  | some d => [⟨d, subs, "pending".data⟩]

/-- The line loop of `_parse_plan` (orchestrator.py 190-223): strip each
line, skip blanks; on a step header close the open step and open a new one
whose description is the text after the first `". "` (the split always
succeeds on a header, but the source's `len == 2` guard is mirrored); on a
`-`/`*` line append the trimmed remainder to the open step's sub-tasks
when that remainder is non-empty and a step is open; ignore other lines;
flush the open step at end of input. -/
def parsePlanLoop : List (List Char) → Option (List Char) → List (List Char) → List PlanStep
  | [], curr, subs => closeStep curr subs
  | rawLine :: rest, curr, subs =>
    let line := trimBoth rawLine
    if line = [] then parsePlanLoop rest curr subs
    else if isStepHeader line then
      match splitFirst ['.', ' '] line with
      | some (_, desc) => closeStep curr subs ++ parsePlanLoop rest (some desc) []
      | none => closeStep curr subs ++ parsePlanLoop rest curr subs
    else if line.head? = some '-' ∨ line.head? = some '*' then
      let subtask := trimBoth (line.drop 1)
      if subtask ≠ [] ∧ curr ≠ none then parsePlanLoop rest curr (subs ++ [subtask])
      else parsePlanLoop rest curr subs
    else parsePlanLoop rest curr subs

/-- `AgentOrchestrator._parse_plan` (orchestrator.py 173-225): strip the
whole text, split it into lines, and run the line loop with no open step. -/
def parse_plan (planText : List Char) : List PlanStep :=
  parsePlanLoop (splitOnChar '\n' (trimBoth planText)) none []

/-! ## Step execution: `_simulate_tool_execution`, `execute_step` and
`execute_plan` (orchestrator.py 227-391).  The free-text completion an
execution agent returns for a step is an oracle parameter; everything the
orchestrator computes from it is embedded. -/

/-- One entry of the tool-execution list built by
`_simulate_tool_execution`: the tool name and the success flag. -/
structure ToolExec where
  tool : List Char
  success : Bool
deriving DecidableEq

/-- `AgentOrchestrator._simulate_tool_execution` (orchestrator.py
349-391): scan the lowercased response text for each known tool name, in
the fixed order of the source, and emit one record per name found, each
with `success := true` (the simulated dispatch). -/
def simulate_tool_execution (executionText : List Char) (yoloMode : Bool) : List ToolExec :=
  let lower := executionText.map Char.toLower
  let toolCalls :=
    (if containsSub "web_scraper".data lower then ["web_scraper".data] else []) ++
    (if containsSub "shell_command".data lower then ["shell_command".data] else []) ++
    (if containsSub "file_manager".data lower then ["file_manager".data] else []) ++
    (if containsSub "web_search".data lower then ["web_search".data] else [])
  toolCalls.map (fun t => ⟨t, true⟩)

/-- The status computation of `execute_step` (orchestrator.py 340):
`completed` when every tool execution succeeded (vacuously on the empty
list), `failed` otherwise. -/
def step_status (tes : List ToolExec) : List Char :=
  if tes.all (fun te => te.success) then "completed".data else "failed".data

/-- The result of one step as built by `execute_step`: the tool-execution
list and the computed status (the raw text and summary carry no control
logic downstream). -/
structure StepResult where
  toolExecutions : List ToolExec
  status : List Char

/-- `AgentOrchestrator.execute_step` (orchestrator.py 279-347), from the
point the agent's completion text is in hand: extract and dispatch the
tool calls via `simulate_tool_execution`, then compute the step status. -/
def execute_step (executionText : List Char) (yoloMode : Bool) : StepResult :=
  let tes := simulate_tool_execution executionText yoloMode
  ⟨tes, step_status tes⟩

/-- One record of `results["steps"]` in `execute_plan`
(orchestrator.py 254-259): ordinal, description, recorded status. -/
structure RecordedStep where
  stepNum : Nat
  description : List Char
  status : List Char
deriving DecidableEq

/-- The aggregate result of `execute_plan`: the recorded steps and the
overall status string. -/
structure PlanResult where
  steps : List RecordedStep
  overall_status : List Char

/-- The step loop of `execute_plan` (orchestrator.py 246-268),
parametrized by the function `stepFn` producing each step's result
(in the source, `execute_step` applied to the agent's completion).
Returns the recorded steps and whether the early-stop branch fired:
after recording a step whose status is `failed` while `yolo_mode` is
false, iteration stops immediately. -/
def execute_plan_loop (stepFn : PlanStep → StepResult) (yoloMode : Bool) :
    List PlanStep → Nat → List RecordedStep × Bool
  | [], _ => ([], false)
  | s :: rest, n =>
    let r := stepFn s
    let recd : RecordedStep := ⟨n, s.description, r.status⟩
    if r.status = "failed".data ∧ yoloMode = false then ([recd], true)
    else
      let tail := execute_plan_loop stepFn yoloMode rest (n + 1)
      (recd :: tail.1, tail.2)

/-- `AgentOrchestrator.execute_plan` (orchestrator.py 227-277): run the
step loop from ordinal 1; the overall status is `failed` exactly when the
early stop fired, and `completed` otherwise (orchestrator.py 271-272). -/
def execute_plan (stepFn : PlanStep → StepResult) (plan : List PlanStep)
    (yoloMode : Bool) : PlanResult :=
  let looped := execute_plan_loop stepFn yoloMode plan 1
  ⟨looped.1, if looped.2 then "failed".data else "completed".data⟩

/-! ## Bridge lemmas: the boolean string utilities agree with their
mathematical readings. -/

theorem isPrefixList_iff (a b : List Char) :
    isPrefixList a b = true ↔ ∃ t, a ++ t = b := by
  induction a generalizing b with
  | nil => simp [isPrefixList]
  | cons c cs ih =>
    cases b with
    | nil => simp [isPrefixList]
    | cons d ds =>
      simp [isPrefixList, Bool.and_eq_true, decide_eq_true_iff, ih]

theorem containsSub_iff (n h : List Char) :
    containsSub n h = true ↔ ∃ s t, s ++ n ++ t = h := by
  induction h with
  | nil =>
    cases n <;> simp [containsSub, isPrefixList]
  | cons c cs ih =>
    simp only [containsSub, Bool.or_eq_true, isPrefixList_iff, ih]
    constructor
    · rintro (⟨t, ht⟩ | ⟨s, t, hst⟩)
      · exact ⟨[], t, by simpa using ht⟩
      · exact ⟨c :: s, t, by simp [hst]⟩
    · rintro ⟨s, t, hst⟩
      cases s with
      | nil => exact Or.inl ⟨t, by simpa using hst⟩
      | cons x xs =>
        obtain ⟨rfl, h2⟩ := List.cons.inj hst
        exact Or.inr ⟨xs, t, h2⟩

theorem trimLeft_eq_nil (l : List Char) (h : ∀ c ∈ l, c.isWhitespace) :
    trimLeft l = [] := by
  induction l with
  | nil => rfl
  | cons c cs ih =>
    have hc : c.isWhitespace := h c (by simp)
    simp [trimLeft, hc]
    exact ih fun d hd => h d (by simp [hd])

/-! ## C2: the block list always wins -/

/-- **C2.** For every policy configuration and command, if any configured
blocked substring occurs anywhere in the full command string, then
`is_command_allowed` returns `false`, whatever the allow list holds; in
particular `"rm -rf /tmp"` is rejected even after `"rm"` is added to the
default allow list. -/
theorem is_command_allowed_blocklist_priority
    (cfg : ShellConfig) (command b : List Char)
    (hb : b ∈ cfg.blocked) (hocc : ∃ s t, s ++ b ++ t = command) :
    is_command_allowed cfg command = false ∧
    is_command_allowed
      ⟨defaultShellConfig.allowed ++ ["rm".data], defaultShellConfig.blocked⟩
      "rm -rf /tmp".data = false := by
  refine ⟨?_, by decide⟩
  unfold is_command_allowed
  have hany : cfg.blocked.any (fun x => containsSub x command) = true :=
    List.any_eq_true.mpr ⟨b, hb, (containsSub_iff b command).mpr hocc⟩
  cases hs : splitWS (trimBoth command) [] with
  | nil => rfl
  | cons base rest => simp [hany]

/-- Witness for C2 at a concrete input: `"dd"` is blocked by the default
policy and occurs in `"dd if=/dev/zero"`, which is therefore rejected. -/
theorem is_command_allowed_blocklist_priority_witness :
    is_command_allowed defaultShellConfig "dd if=/dev/zero".data = false :=
  (is_command_allowed_blocklist_priority defaultShellConfig
    "dd if=/dev/zero".data "dd".data (by decide)
    ⟨[], " if=/dev/zero".data, by decide⟩).1

/-! ## C10: default policy on concrete commands -/

/-- **C10.** Under the default configuration, `"ls -la"` is allowed,
`"scp file host:"` is rejected (base command not in the allow list), and
every command whose characters are all whitespace — the empty command
included — is rejected. -/
theorem default_policy_spec :
    is_command_allowed defaultShellConfig "ls -la".data = true ∧
    is_command_allowed defaultShellConfig "scp file host:".data = false ∧
    ∀ command : List Char, (∀ c ∈ command, c.isWhitespace) →
      is_command_allowed defaultShellConfig command = false := by
  refine ⟨by decide, by decide, fun command h => ?_⟩
  have h1 : trimLeft command = [] := trimLeft_eq_nil command h
  unfold is_command_allowed trimBoth
  simp [h1, splitWS]

/-- Witness for C10 at concrete inputs: the whitespace-only command
`"  \t "` is rejected under the default policy. -/
theorem default_policy_spec_witness :
    is_command_allowed defaultShellConfig "  \t ".data = false :=
  default_policy_spec.2.2 "  \t ".data (by decide)

/-! ## C8: local timeout becomes a failure value -/

/-- **C8.** For every allowed command run locally, the 60-second-timeout
outcome of the child process yields a returned failure value: `success =
false` and an error description stating the timeout explicitly.  The
embedded `run_command` is a total function into `CommandResult`, so no
outcome — the timeout included — propagates as a raised fault. -/
theorem run_command_timeout_failure
    (cfg : ShellConfig) (command : List Char) (sb : SandboxOutcome)
    (hallow : is_command_allowed cfg command = true) :
    (run_command cfg false command ExecOutcome.timedOut sb).success = false ∧
    (run_command cfg false command ExecOutcome.timedOut sb).error =
      some "Command execution timed out after 60 seconds".data := by
  unfold run_command
  simp [hallow, run_local]

/-- Witness for C8 at a concrete input: `"ls"` is allowed by the default
policy, and its timed-out local run reports the timeout failure value. -/
theorem run_command_timeout_failure_witness :
    (run_command defaultShellConfig false "ls".data ExecOutcome.timedOut
        SandboxOutcome.decodeFailure).success = false ∧
    (run_command defaultShellConfig false "ls".data ExecOutcome.timedOut
        SandboxOutcome.decodeFailure).error =
      some "Command execution timed out after 60 seconds".data :=
  run_command_timeout_failure defaultShellConfig "ls".data
    SandboxOutcome.decodeFailure (by decide)

/-! ## C9: delete semantics inside the root -/

/-- A path whose resolution stays within the root (in the spec's
path-prefix sense) also passes the string-prefix test the code performs:
path-prefix containment implies string-prefix containment. -/
theorem spec_within_implies_check (wd p : List Char)
    (h : specWithinRoot wd p = true) : pathCheckOk wd p = true := by
  simp only [specWithinRoot] at h
  unfold pathCheckOk
  by_cases h1 : normpathL (joinPathL wd p) = normpathL wd
  · rw [h1]
    exact (isPrefixList_iff _ _).mpr ⟨[], List.append_nil _⟩
  · have h1' : (normpathL (joinPathL wd p) == normpathL wd) = false :=
      beq_eq_false_iff_ne.mpr h1
    rw [h1'] at h
    simp only [Bool.false_or] at h
    obtain ⟨t, ht⟩ := (isPrefixList_iff _ _).mp h
    exact (isPrefixList_iff _ _).mpr ⟨'/' :: t, by simpa using ht⟩

/-- **C9.** For every path whose resolution stays within the
working-directory root, `manage_file "delete"` fails when the resolved
path does not exist, fails when it names a directory (leaving the
filesystem unchanged in both cases), and otherwise removes the file —
the resolved path maps to nothing afterwards, every other path is
untouched — and reports success. -/
theorem manage_file_delete_spec (wd path : List Char) (fs : FS)
    (h : specWithinRoot wd path = true) :
    (fs (normpathL (joinPathL wd path)) = none →
      (manage_file wd "delete".data path none fs).1.success = false ∧
      (manage_file wd "delete".data path none fs).1.error =
        some "File does not exist".data ∧
      (manage_file wd "delete".data path none fs).2 = fs) ∧
    (∀ es, fs (normpathL (joinPathL wd path)) = some (FSNode.dir es) →
      (manage_file wd "delete".data path none fs).1.success = false ∧
      (manage_file wd "delete".data path none fs).1.error =
        some "Cannot delete directories".data ∧
      (manage_file wd "delete".data path none fs).2 = fs) ∧
    (∀ c, fs (normpathL (joinPathL wd path)) = some (FSNode.file c) →
      (manage_file wd "delete".data path none fs).1.success = true ∧
      (manage_file wd "delete".data path none fs).1.error = none ∧
      (manage_file wd "delete".data path none fs).2
        (normpathL (joinPathL wd path)) = none ∧
      ∀ q, q ≠ normpathL (joinPathL wd path) →
        (manage_file wd "delete".data path none fs).2 q = fs q) := by
  have hchk := spec_within_implies_check wd path h
  refine ⟨fun hfs => ?_, fun es hfs => ?_, fun c hfs => ?_⟩
  · simp [manage_file, hchk, hfs]
  · simp [manage_file, hchk, hfs]
  · simp only [manage_file, hchk]
    simp [hfs]
    intro q hq
    simp [hq]

/-- Witness for C9 at a concrete input: under root `/w`, deleting the
existing file `a.txt` succeeds and removes exactly that path, while
deleting the directory `d` fails. -/
theorem manage_file_delete_spec_witness :
    (manage_file "/w".data "delete".data "a.txt".data none
        (fun q => if q = "/w/a.txt".data then some (FSNode.file "hello".data)
                  else if q = "/w/d".data then some (FSNode.dir []) else none)).1.success
      = true ∧
    (manage_file "/w".data "delete".data "d".data none
        (fun q => if q = "/w/a.txt".data then some (FSNode.file "hello".data)
                  else if q = "/w/d".data then some (FSNode.dir []) else none)).1.error
      = some "Cannot delete directories".data := by
  constructor
  · exact ((manage_file_delete_spec "/w".data "a.txt".data _ (by decide)).2.2
      "hello".data (by decide)).1
  · exact ((manage_file_delete_spec "/w".data "d".data _ (by decide)).2.1
      [] (by decide)).2.1

/-! ## C1: the containment check is a string-prefix test, not a
path-prefix test -/

/-- The filesystem of the C1 escape scenario: the configured root is
`/home/user`, and a sibling user's file `/home/user2/secret.txt` exists
outside that root. -/
def escapeFS : FS := fun q =>
  if q = "/home/user2/secret.txt".data then some (FSNode.file "top secret".data)
  else none

/-- **C1** (evaluation at the failing input).  The claimed invariant —
every resolution that escapes the root is rejected with a path-escape
error and no filesystem access is attempted — does not hold of the code:
the check performed is `normpath(join(root, path)).startswith(normpath(root))`,
a string-prefix test.  Against root `/home/user`, the request
`../user2/secret.txt` resolves to `/home/user2/secret.txt`, which escapes
the root (`specWithinRoot` is false) yet passes the code's test
(`pathCheckOk` is true), and `manage_file "read"` then reaches the
filesystem and returns the out-of-root file's content with success.
Likewise the spec's own example `../../etc/passwd` is *not* rejected
against every root: against root `/e` it resolves to `/etc/passwd`,
escapes, and passes the check. -/
theorem manage_file_path_check_escape_bug :
    specWithinRoot "/home/user".data "../user2/secret.txt".data = false ∧
    pathCheckOk "/home/user".data "../user2/secret.txt".data = true ∧
    (manage_file "/home/user".data "read".data "../user2/secret.txt".data
        none escapeFS).1.success = true ∧
    (manage_file "/home/user".data "read".data "../user2/secret.txt".data
        none escapeFS).1.content = some "top secret".data ∧
    (manage_file "/home/user".data "read".data "../user2/secret.txt".data
        none escapeFS).1.error = none ∧
    specWithinRoot "/e".data "../../etc/passwd".data = false ∧
    pathCheckOk "/e".data "../../etc/passwd".data = true := by
  decide

/-! ## C3 and C4: the plan-execution loop -/

/-- The record list `execute_plan` builds when nothing stops it: one
record per plan step, in order, carrying the step's computed status,
ordinals counting from `n`. -/
def recordPlan (stepFn : PlanStep → StepResult) :
    List PlanStep → Nat → List RecordedStep
  | [], _ => []
  | s :: rest, n =>
    ⟨n, s.description, (stepFn s).status⟩ :: recordPlan stepFn rest (n + 1)

theorem recordPlan_length (stepFn : PlanStep → StepResult) :
    ∀ plan n, (recordPlan stepFn plan n).length = plan.length := by
  intro plan
  induction plan with
  | nil => intro n; rfl
  | cons s rest ih => intro n; simp [recordPlan, ih]

theorem execute_plan_loop_yolo (stepFn : PlanStep → StepResult) :
    ∀ plan n, execute_plan_loop stepFn true plan n = (recordPlan stepFn plan n, false) := by
  intro plan
  induction plan with
  | nil => intro n; rfl
  | cons s rest ih =>
    intro n
    simp [execute_plan_loop, recordPlan, ih]

theorem execute_plan_loop_ok (stepFn : PlanStep → StepResult) :
    ∀ plan n, (∀ p ∈ plan, (stepFn p).status ≠ "failed".data) →
      execute_plan_loop stepFn false plan n = (recordPlan stepFn plan n, false) := by
  intro plan
  induction plan with
  | nil => intro n _; rfl
  | cons s rest ih =>
    intro n h
    have hs : (stepFn s).status ≠ "failed".data := h s (by simp)
    have hrest := ih (n + 1) fun p hp => h p (by simp [hp])
    simp [execute_plan_loop, recordPlan, hs, hrest]

theorem execute_plan_loop_first_fail (stepFn : PlanStep → StepResult) :
    ∀ pre (s : PlanStep) post n,
      (∀ p ∈ pre, (stepFn p).status ≠ "failed".data) →
      (stepFn s).status = "failed".data →
      execute_plan_loop stepFn false (pre ++ s :: post) n =
        (recordPlan stepFn (pre ++ [s]) n, true) := by
  intro pre
  induction pre with
  | nil =>
    intro s post n _ hs
    simp [execute_plan_loop, recordPlan, hs]
  | cons p ps ih =>
    intro s post n h hs
    have hp : (stepFn p).status ≠ "failed".data := h p (by simp)
    have hrest := ih s post (n + 1) (fun q hq => h q (by simp [hq])) hs
    simp [execute_plan_loop, recordPlan, hp, hrest]

/-- **C3.** `execute_plan` iterates the plan strictly in order.  When the
plan splits as `pre ++ s :: post` with no step of `pre` failing and `s`
failing, running with `yolo_mode = false` records exactly the steps up to
and including `s` — `pre.length + 1` records — and reports overall status
`failed`.  When no step fails, the `yolo_mode = false` run records every
step and reports `completed`.  With `yolo_mode = true` the loop never
stops early: every step is recorded and the overall status is `completed`
regardless of individual failures. -/
theorem execute_plan_stop_and_continue (stepFn : PlanStep → StepResult)
    (plan pre post : List PlanStep) (s : PlanStep) :
    (plan = pre ++ s :: post →
      (∀ p ∈ pre, (stepFn p).status ≠ "failed".data) →
      (stepFn s).status = "failed".data →
      (execute_plan stepFn plan false).steps = recordPlan stepFn (pre ++ [s]) 1 ∧
      (execute_plan stepFn plan false).steps.length = pre.length + 1 ∧
      (execute_plan stepFn plan false).overall_status = "failed".data) ∧
    ((∀ p ∈ plan, (stepFn p).status ≠ "failed".data) →
      (execute_plan stepFn plan false).steps = recordPlan stepFn plan 1 ∧
      (execute_plan stepFn plan false).overall_status = "completed".data) ∧
    ((execute_plan stepFn plan true).steps = recordPlan stepFn plan 1 ∧
      (execute_plan stepFn plan true).steps.length = plan.length ∧
      (execute_plan stepFn plan true).overall_status = "completed".data) := by
  refine ⟨?_, ?_, ?_⟩
  · rintro rfl hpre hs
    have hloop := execute_plan_loop_first_fail stepFn pre s post 1 hpre hs
    refine ⟨?_, ?_, ?_⟩
    · simp [execute_plan, hloop]
    · simp [execute_plan, hloop, recordPlan_length]
    · simp [execute_plan, hloop]
  · intro h
    have hloop := execute_plan_loop_ok stepFn plan 1 h
    exact ⟨by simp [execute_plan, hloop], by simp [execute_plan, hloop]⟩
  · have hloop := execute_plan_loop_yolo stepFn plan 1
    exact ⟨by simp [execute_plan, hloop],
      by simp [execute_plan, hloop, recordPlan_length],
      by simp [execute_plan, hloop]⟩

/-- A three-step demonstration plan whose second step fails: the concrete
scenario named by C3. -/
def demoStep (d : List Char) : PlanStep := ⟨d, [], "pending".data⟩

/-- The step-result function of the demonstration: step `two` fails with
one unsuccessful tool execution, the others complete with none. -/
def demoStepFn : PlanStep → StepResult := fun st =>
  if st.description = "two".data then
    ⟨[⟨"shell_command".data, false⟩], "failed".data⟩
  else ⟨[], "completed".data⟩

/-- The three-step demonstration plan of C3. -/
def demoPlan : List PlanStep :=
  [demoStep "one".data, demoStep "two".data, demoStep "three".data]

/-- Witness for C3 at the concrete three-step plan whose step 2 fails:
`yolo_mode = false` records 2 steps with overall `failed`; `yolo_mode =
true` records all 3 with overall `completed`. -/
theorem execute_plan_stop_and_continue_witness :
    (execute_plan demoStepFn demoPlan false).steps.length = 2 ∧
    (execute_plan demoStepFn demoPlan false).overall_status = "failed".data ∧
    (execute_plan demoStepFn demoPlan true).steps.length = 3 ∧
    (execute_plan demoStepFn demoPlan true).overall_status = "completed".data := by
  obtain ⟨h1, _h2, h3⟩ := execute_plan_stop_and_continue demoStepFn demoPlan
    [demoStep "one".data] [demoStep "three".data] (demoStep "two".data)
  obtain ⟨_, e2, e3⟩ := h1 (by decide) (by decide) (by decide)
  exact ⟨e2, e3, h3.2.1, h3.2.2⟩

/-- **C4.** Under the reference intent extraction, every record returned
by `_simulate_tool_execution` has `success = true`; consequently every
step's status computed by `execute_step` is `completed`, the early-stop
branch of `execute_plan` is never taken, and `execute_plan` — driven by
`execute_step` over any per-step completion text and either yolo flag —
returns overall status `completed` with exactly one record per plan
step. -/
theorem simulated_execution_always_completes
    (respond : PlanStep → List Char) (plan : List PlanStep) (yolo : Bool)
    (text : List Char) :
    (simulate_tool_execution text yolo).all (fun te => te.success) = true ∧
    (execute_step text yolo).status = "completed".data ∧
    (execute_plan (fun s => execute_step (respond s) yolo) plan yolo).overall_status
      = "completed".data ∧
    (execute_plan (fun s => execute_step (respond s) yolo) plan yolo).steps.length
      = plan.length := by
  have hall : ∀ (t : List Char) (y : Bool),
      (simulate_tool_execution t y).all (fun te => te.success) = true := by
    intro t y
    simp [simulate_tool_execution, List.all_eq_true]
  have hstep : ∀ (t : List Char) (y : Bool),
      (execute_step t y).status = "completed".data := by
    intro t y
    unfold execute_step step_status
    simp [hall t y]
  have hne : ∀ s : PlanStep,
      ((fun s => execute_step (respond s) yolo) s).status ≠ "failed".data := by
    intro s
    rw [hstep (respond s) yolo]
    decide
  refine ⟨hall text yolo, hstep text yolo, ?_, ?_⟩
  · cases yolo with
    | true =>
      simp [execute_plan, execute_plan_loop_yolo]
    | false =>
      have hloop := execute_plan_loop_ok _ plan 1 fun p _ => hne p
      simp [execute_plan, hloop]
  · cases yolo with
    | true =>
      simp [execute_plan, execute_plan_loop_yolo, recordPlan_length]
    | false =>
      have hloop := execute_plan_loop_ok _ plan 1 fun p _ => hne p
      simp [execute_plan, hloop, recordPlan_length]

/-! ## C7: step status is the conjunction of its tool executions -/

/-- **C7.** A step's computed status is `completed` exactly when every
entry of its tool-execution list has `success = true`, and `failed` in
every other case; a step with zero tool invocations is `completed`
vacuously; and `execute_step` assigns precisely this status to the
tool-execution list it produced. -/
theorem step_status_completed_iff (tes : List ToolExec)
    (text : List Char) (yolo : Bool) :
    (step_status tes = "completed".data ↔ ∀ te ∈ tes, te.success = true) ∧
    (step_status tes = "completed".data ∨ step_status tes = "failed".data) ∧
    step_status [] = "completed".data ∧
    (execute_step text yolo).status =
      step_status ((execute_step text yolo).toolExecutions) := by
  refine ⟨?_, ?_, rfl, rfl⟩
  · unfold step_status
    by_cases h : tes.all (fun te => te.success) = true
    · rw [if_pos h]
      exact iff_of_true rfl (List.all_eq_true.mp h)
    · rw [if_neg h]
      refine iff_of_false (by decide) fun hc => h (List.all_eq_true.mpr hc)
  · unfold step_status
    by_cases h : tes.all (fun te => te.success) = true
    · rw [if_pos h]; exact Or.inl rfl
    · rw [if_neg h]; exact Or.inr rfl

/-- Witness for C7 at a concrete input: the empty tool-execution list
yields status `completed`. -/
theorem step_status_completed_iff_witness :
    step_status [] = "completed".data :=
  (step_status_completed_iff [] [] true).2.2.1

/-! ## Parser lemmas for C5 and C6 -/

theorem splitFirst_sound (sep : List Char) (hsep : sep ≠ []) :
    ∀ l pre post, splitFirst sep l = some (pre, post) →
      l = pre ++ sep ++ post ∧ containsSub sep pre = false := by
  intro l
  induction l with
  | nil =>
    intro pre post h
    simp [splitFirst, hsep] at h
  | cons c cs ih =>
    intro pre post h
    unfold splitFirst at h
    by_cases hpref : isPrefixList sep (c :: cs) = true
    · simp only [hpref, if_true] at h
      obtain ⟨rfl, rfl⟩ := Prod.mk.inj (Option.some.inj h)
      obtain ⟨t, ht⟩ := (isPrefixList_iff _ _).mp hpref
      have hdrop : (c :: cs).drop sep.length = t := by
        rw [← ht]; exact List.drop_left sep t
      constructor
      · rw [hdrop, ← ht]; simp
      · cases sep with
        | nil => exact absurd rfl hsep
        | cons x xs => rfl
    · have hpf : isPrefixList sep (c :: cs) = false :=
        Bool.not_eq_true _ ▸ (Bool.eq_false_iff.mpr hpref)
      simp only [hpf, Bool.false_eq_true, if_false] at h
      cases hrec : splitFirst sep cs with
      | none => rw [hrec] at h; cases h
      | some pr =>
        obtain ⟨pre', post'⟩ := pr
        rw [hrec] at h
        have h2 : some (c :: pre', post') = some (pre, post) := h
        obtain ⟨rfl, rfl⟩ := Prod.mk.inj (Option.some.inj h2)
        obtain ⟨hcs, hpre'⟩ := ih pre' post' hrec
        constructor
        · simp [hcs]
        · have h1 : isPrefixList sep (c :: pre') = false := by
            cases hx : isPrefixList sep (c :: pre') with
            | false => rfl
            | true =>
              exfalso
              obtain ⟨t, ht⟩ := (isPrefixList_iff _ _).mp hx
              have hcontra : isPrefixList sep (c :: cs) = true := by
                refine (isPrefixList_iff _ _).mpr ⟨t ++ (sep ++ post'), ?_⟩
                rw [hcs]
                calc sep ++ (t ++ (sep ++ post'))
                    = (sep ++ t) ++ (sep ++ post') := by rw [List.append_assoc]
                  _ = (c :: pre') ++ (sep ++ post') := by rw [ht]
                  _ = c :: (pre' ++ sep ++ post') := by simp
              rw [hcontra] at hpf
              cases hpf
          unfold containsSub
          simp [h1, hpre']

theorem containsSub_splitFirst (sep : List Char) :
    ∀ l, containsSub sep l = true →
      ∃ pre post, splitFirst sep l = some (pre, post) := by
  intro l
  induction l with
  | nil =>
    intro h
    unfold containsSub at h
    cases sep with
    | nil => exact ⟨[], [], by simp [splitFirst]⟩
    | cons x xs => simp [isPrefixList] at h
  | cons c cs ih =>
    intro h
    unfold containsSub at h
    by_cases hpref : isPrefixList sep (c :: cs) = true
    · exact ⟨[], (c :: cs).drop sep.length, by simp [splitFirst, hpref]⟩
    · have hpf : isPrefixList sep (c :: cs) = false :=
        Bool.not_eq_true _ ▸ (Bool.eq_false_iff.mpr hpref)
      rw [hpf, Bool.false_or] at h
      obtain ⟨pre, post, hrec⟩ := ih h
      exact ⟨c :: pre, post, by simp [splitFirst, hpf, hrec]⟩

theorem parsePlanLoop_blank (raw : List Char) (rest : List (List Char))
    (curr : Option (List Char)) (subs : List (List Char))
    (h : trimBoth raw = []) :
    parsePlanLoop (raw :: rest) curr subs = parsePlanLoop rest curr subs := by
  simp [parsePlanLoop, h]

theorem parsePlanLoop_header (raw : List Char) (rest : List (List Char))
    (curr : Option (List Char)) (subs : List (List Char)) (pre desc : List Char)
    (hline : isStepHeader (trimBoth raw) = true)
    (hsplit : splitFirst ['.', ' '] (trimBoth raw) = some (pre, desc)) :
    parsePlanLoop (raw :: rest) curr subs =
      closeStep curr subs ++ parsePlanLoop rest (some desc) [] := by
  have hne : trimBoth raw ≠ [] := by
    intro h0
    rw [h0] at hline
    simp [isStepHeader] at hline
  simp [parsePlanLoop, hne, hline, hsplit]

theorem parsePlanLoop_subtask (raw : List Char) (rest : List (List Char))
    (curr : Option (List Char)) (subs : List (List Char))
    (hne : trimBoth raw ≠ [])
    (hnh : isStepHeader (trimBoth raw) = false)
    (hbul : (trimBoth raw).head? = some '-' ∨ (trimBoth raw).head? = some '*') :
    parsePlanLoop (raw :: rest) curr subs =
      if trimBoth ((trimBoth raw).drop 1) ≠ [] ∧ curr ≠ none then
        parsePlanLoop rest curr (subs ++ [trimBoth ((trimBoth raw).drop 1)])
      else parsePlanLoop rest curr subs := by
  simp [parsePlanLoop, hne, hnh, hbul]

theorem parsePlanLoop_other (raw : List Char) (rest : List (List Char))
    (curr : Option (List Char)) (subs : List (List Char))
    (hne : trimBoth raw ≠ [])
    (hnh : isStepHeader (trimBoth raw) = false)
    (hnb : ¬ ((trimBoth raw).head? = some '-' ∨ (trimBoth raw).head? = some '*')) :
    parsePlanLoop (raw :: rest) curr subs = parsePlanLoop rest curr subs := by
  simp [parsePlanLoop, hne, hnh, hnb]

theorem parsePlanLoop_status :
    ∀ (lines : List (List Char)) (curr : Option (List Char))
      (subs : List (List Char)) (st : PlanStep),
      st ∈ parsePlanLoop lines curr subs → st.status = "pending".data := by
  intro lines
  induction lines with
  | nil =>
    intro curr subs st hst
    cases curr with
    | none => simp [parsePlanLoop, closeStep] at hst
    | some d =>
      simp [parsePlanLoop, closeStep] at hst
      subst hst
      rfl
  | cons raw rest ih =>
    intro curr subs st hst
    by_cases hblank : trimBoth raw = []
    · rw [parsePlanLoop_blank _ _ _ _ hblank] at hst
      exact ih _ _ _ hst
    by_cases hhead : isStepHeader (trimBoth raw) = true
    · have hcontains : containsSub ['.', ' '] (trimBoth raw) = true := by
        cases htb : trimBoth raw with
        | nil => exact absurd htb hblank
        | cons c cs =>
          rw [htb] at hhead
          have h2 : (c.isDigit && containsSub ['.', ' '] (c :: cs)) = true := hhead
          exact ((Bool.and_eq_true _ _) ▸ h2).2
      obtain ⟨pre, desc, hsplit⟩ := containsSub_splitFirst _ _ hcontains
      rw [parsePlanLoop_header _ _ _ _ _ _ hhead hsplit] at hst
      rcases List.mem_append.mp hst with hl | hr
      · cases curr with
        | none => simp [closeStep] at hl
        | some d =>
          simp [closeStep] at hl
          subst hl
          rfl
      · exact ih _ _ _ hr
    · have hnh : isStepHeader (trimBoth raw) = false :=
        Bool.not_eq_true _ ▸ (Bool.eq_false_iff.mpr hhead)
      by_cases hbul : (trimBoth raw).head? = some '-' ∨ (trimBoth raw).head? = some '*'
      · rw [parsePlanLoop_subtask _ _ _ _ hblank hnh hbul] at hst
        by_cases hcond : trimBoth ((trimBoth raw).drop 1) ≠ [] ∧ curr ≠ none
        · rw [if_pos hcond] at hst
          exact ih _ _ _ hst
        · rw [if_neg hcond] at hst
          exact ih _ _ _ hst
      · rw [parsePlanLoop_other _ _ _ _ hblank hnh hbul] at hst
        exact ih _ _ _ hst

theorem parsePlanLoop_no_header :
    ∀ (lines : List (List Char)) (subs : List (List Char)),
      (∀ l ∈ lines, isStepHeader (trimBoth l) = false) →
      parsePlanLoop lines none subs = [] := by
  intro lines
  induction lines with
  | nil => intro subs _; rfl
  | cons raw rest ih =>
    intro subs h
    have hr : ∀ l ∈ rest, isStepHeader (trimBoth l) = false :=
      fun l hl => h l (by simp [hl])
    by_cases hblank : trimBoth raw = []
    · rw [parsePlanLoop_blank _ _ _ _ hblank]
      exact ih _ hr
    have hnh : isStepHeader (trimBoth raw) = false := h raw (by simp)
    by_cases hbul : (trimBoth raw).head? = some '-' ∨ (trimBoth raw).head? = some '*'
    · rw [parsePlanLoop_subtask _ _ _ _ hblank hnh hbul]
      rw [if_neg (by simp)]
      exact ih _ hr
    · rw [parsePlanLoop_other _ _ _ _ hblank hnh hbul]
      exact ih _ hr

/-! ## C5: step headers, closing, flushing, and the empty result -/

/-- **C5.** A stripped line is a step header exactly when its first
character is a decimal digit and it contains `". "`; on a header line the
loop closes the previously open step — appended, if any, with status
`pending` by `closeStep` — and opens a new step whose description is the
text after the *first* `". "` (the split succeeds on every header and
yields the remainder after an occurrence preceded by no earlier one),
with an empty sub-task list; the last open step is flushed at end of
input; text with no recognizable header parses to the empty step list;
every parsed step carries status `pending`; and the worked example
`"1. Step A\n- sub1\n- sub2\n2. Step B\n* sub3"` yields exactly Step A
with sub-tasks [sub1, sub2] and Step B with sub-tasks [sub3], both
pending. -/
theorem parse_plan_step_header_spec
    (line raw planText : List Char) (rest : List (List Char))
    (curr : Option (List Char)) (subs : List (List Char)) (pre desc : List Char) :
    (isStepHeader line = true ↔
      ((∃ c cs, line = c :: cs ∧ c.isDigit = true) ∧
        ∃ s t, s ++ ['.', ' '] ++ t = line)) ∧
    (isStepHeader (trimBoth raw) = true →
      ∃ p d, splitFirst ['.', ' '] (trimBoth raw) = some (p, d) ∧
        trimBoth raw = p ++ ['.', ' '] ++ d ∧ containsSub ['.', ' '] p = false) ∧
    (isStepHeader (trimBoth raw) = true →
      splitFirst ['.', ' '] (trimBoth raw) = some (pre, desc) →
      parsePlanLoop (raw :: rest) curr subs =
        closeStep curr subs ++ parsePlanLoop rest (some desc) []) ∧
    (parsePlanLoop [] curr subs = closeStep curr subs) ∧
    ((∀ l ∈ splitOnChar '\n' (trimBoth planText), isStepHeader (trimBoth l) = false) →
      parse_plan planText = []) ∧
    (∀ st ∈ parse_plan planText, st.status = "pending".data) ∧
    (parse_plan "1. Step A\n- sub1\n- sub2\n2. Step B\n* sub3".data =
      [⟨"Step A".data, ["sub1".data, "sub2".data], "pending".data⟩,
       ⟨"Step B".data, ["sub3".data], "pending".data⟩]) := by
  refine ⟨?_, ?_, ?_, rfl, ?_, ?_, by decide⟩
  · cases line with
    | nil => simp [isStepHeader]
    | cons c cs =>
      simp only [isStepHeader, Bool.and_eq_true, containsSub_iff]
      constructor
      · rintro ⟨hd, hsub⟩
        exact ⟨⟨c, cs, rfl, hd⟩, hsub⟩
      · rintro ⟨⟨c', cs', heq, hd⟩, hsub⟩
        obtain ⟨rfl, rfl⟩ := List.cons.inj heq
        exact ⟨hd, hsub⟩
  · intro hhead
    have hcontains : containsSub ['.', ' '] (trimBoth raw) = true := by
      cases htb : trimBoth raw with
      | nil => rw [htb] at hhead; simp [isStepHeader] at hhead
      | cons c cs =>
        rw [htb] at hhead
        have h2 : (c.isDigit && containsSub ['.', ' '] (c :: cs)) = true := hhead
        exact ((Bool.and_eq_true _ _) ▸ h2).2
    obtain ⟨p, d, hsplit⟩ := containsSub_splitFirst _ _ hcontains
    obtain ⟨heq, hfirst⟩ := splitFirst_sound ['.', ' '] (by decide) _ _ _ hsplit
    exact ⟨p, d, hsplit, heq, hfirst⟩
  · intro hhead hsplit
    exact parsePlanLoop_header _ _ _ _ _ _ hhead hsplit
  · intro h
    exact parsePlanLoop_no_header _ _ h
  · intro st hst
    exact parsePlanLoop_status _ _ _ _ hst

/-- Witness for C5 at a concrete input: a text with no recognizable step
header parses to the empty step list. -/
theorem parse_plan_step_header_spec_witness :
    parse_plan "just prose\nno headers".data = [] :=
  (parse_plan_step_header_spec [] [] "just prose\nno headers".data [] none
    [] [] []).2.2.2.2.1 (by decide)

/-! ## C6 (corrected): empty sub-task remainders are discarded -/

/-- **C6, counterexample.** The claim states that every `-`/`*` line seen
while a step is open appends its trimmed remainder, *including* lines
whose trimmed remainder is empty.  At the concrete input `"1. A\n-"` the
bullet line `"-"` is such a line, so the claim demands sub-task list
`[""]` for step A; the code produces the empty sub-task list instead
(`if subtask` skips falsy, i.e. empty, remainders). -/
theorem parse_plan_empty_subtask_counterexample :
    parse_plan "1. A\n-".data = [⟨"A".data, [], "pending".data⟩] ∧
    (parse_plan "1. A\n-".data).map PlanStep.subtasks ≠ [[[]]] := by
  decide

/-- **C6, amended.** For every line that, after stripping, is non-blank,
is not a step header, and begins with `-` or `*`, `_parse_plan` appends
the line's trimmed remainder to the open step's sub-task list *iff* that
remainder is non-empty and a step is open; a bullet line whose trimmed
remainder is empty (or seen with no open step) leaves the sub-task list
unchanged. -/
theorem parse_plan_subtask_amended
    (raw : List Char) (rest : List (List Char)) (curr : Option (List Char))
    (subs : List (List Char))
    (hne : trimBoth raw ≠ [])
    (hnh : isStepHeader (trimBoth raw) = false)
    (hbul : (trimBoth raw).head? = some '-' ∨ (trimBoth raw).head? = some '*') :
    (trimBoth ((trimBoth raw).drop 1) ≠ [] → curr ≠ none →
      parsePlanLoop (raw :: rest) curr subs =
        parsePlanLoop rest curr (subs ++ [trimBoth ((trimBoth raw).drop 1)])) ∧
    (trimBoth ((trimBoth raw).drop 1) = [] ∨ curr = none →
      parsePlanLoop (raw :: rest) curr subs = parsePlanLoop rest curr subs) := by
  have heq := parsePlanLoop_subtask raw rest curr subs hne hnh hbul
  constructor
  · intro h1 h2
    rw [heq, if_pos ⟨h1, h2⟩]
  · intro h
    have hcond : ¬ (trimBoth ((trimBoth raw).drop 1) ≠ [] ∧ curr ≠ none) := by
      rcases h with h | h
      · exact fun hc => hc.1 h
      · exact fun hc => hc.2 h
    rw [heq, if_neg hcond]

/-- Witness for the amended C6 at concrete inputs: the bullet line
`"- x"` appends `"x"` to the open step's sub-tasks, while the bare bullet
line `"-"` appends nothing. -/
theorem parse_plan_subtask_amended_witness :
    parsePlanLoop ["- x".data] (some "A".data) [] =
      parsePlanLoop [] (some "A".data) ["x".data] ∧
    parsePlanLoop ["-".data] (some "A".data) [] =
      parsePlanLoop [] (some "A".data) [] :=
  ⟨(parse_plan_subtask_amended "- x".data [] (some "A".data) []
      (by decide) (by decide) (by decide)).1 (by decide) (by decide),
   (parse_plan_subtask_amended "-".data [] (some "A".data) []
      (by decide) (by decide) (by decide)).2 (Or.inl (by decide))⟩

end Manus
